import Mathlib

set_option maxRecDepth 8000

namespace S3DAL

/-- Record from base.go: a log record with a uint64 offset (modelled as a
natural number below 2^64) and an opaque byte payload (bytes are naturals
below 256). -/
structure Record where
  Offset : Nat
  Data : List Nat
  deriving DecidableEq, Repr

/-- Big-endian decimal digits of a number, fixed width w: the digit list
produced by fmt.Sprintf with a zero-padding verb of width w, most
significant digit first (faithful for numbers below 10^w, which covers the
whole uint64 range at width 20). -/
def digitsBE : Nat → Nat → List Nat
  | 0, _ => []
  | w + 1, n => (n / 10 ^ w % 10) :: digitsBE w n

/-- ASCII character of a decimal digit. -/
def digitChar (d : Nat) : Char := Char.ofNat (48 + d)

/-- getObjectKey from the source: pfx ++ "/" ++ fmt.Sprintf("%020d", offset).
For a uint64 offset the verb prints exactly 20 zero-padded decimal digits. -/
def getObjectKey (pfx : List Char) (offset : Nat) : List Char :=
  pfx ++ '/' :: (digitsBE 20 offset).map digitChar

/-- Error outcomes of getOffsetFromKey: the slice key[len(pfx)+1:] panics when
the key is too short (modelled as an explicit outOfBounds error), and
strconv.ParseUint fails on an empty remainder, a non-digit character, or a
value that does not fit in 64 bits (all modelled as malformedKey). -/
inductive KeyErr where
  | outOfBounds
  | malformedKey
  deriving DecidableEq, Repr

/-- Accumulating loop of strconv.ParseUint(s, 10, 64): reject a non-digit
character, multiply-accumulate, and reject as soon as the value leaves the
64-bit range. -/
def parseUint64Aux : Nat → List Char → Except KeyErr Nat
  | n, [] => Except.ok n
  | n, c :: cs =>
    if '0' ≤ c ∧ c ≤ '9' then
      if n * 10 + (c.toNat - 48) < 2 ^ 64 then
        parseUint64Aux (n * 10 + (c.toNat - 48)) cs
      else Except.error KeyErr.malformedKey
    else Except.error KeyErr.malformedKey

/-- strconv.ParseUint(s, 10, 64): digits only, non-empty, value below 2^64. -/
def parseUint64 (s : List Char) : Except KeyErr Nat :=
  if s.isEmpty then Except.error KeyErr.malformedKey else parseUint64Aux 0 s

/-- getOffsetFromKey from the source: slice off the first len(pfx)+1
characters (a panic when the key is shorter, modelled as outOfBounds) and
parse the remainder as an unsigned 64-bit decimal. -/
def getOffsetFromKey (pfx key : List Char) : Except KeyErr Nat :=
  if key.length < pfx.length + 1 then Except.error KeyErr.outOfBounds
  else parseUint64 (key.drop (pfx.length + 1))

/-- One shift step of the crc16Fast inner loop on a 16-bit register: shift
left (wrapping mod 2^16) and xor in the 0x1021 polynomial when the high bit
was set. -/
def crcShift (c : Nat) : Nat :=
  if c &&& 0x8000 ≠ 0 then ((c <<< 1) % 2 ^ 16) ^^^ 0x1021 else (c <<< 1) % 2 ^ 16

/-- n sequential crcShift steps. -/
def crcShiftN : Nat → Nat → Nat
  | 0, c => c
  | n + 1, c => crcShiftN n (crcShift c)

/-- One byte step of crc16Fast: xor the byte into the high half of the
register, then run eight shift steps. -/
def crcByte (c b : Nat) : Nat := crcShiftN 8 (c ^^^ (b <<< 8))

/-- crc16Fast from the source: fold the byte step over the data, starting
from the 0xCACA seed. -/
def crc16Fast (data : List Nat) : Nat := data.foldl crcByte 0xCACA

/-- Big-endian bytes of a uint64 value. -/
def be64 (n : Nat) : List Nat :=
  [n / 2 ^ 56 % 256, n / 2 ^ 48 % 256, n / 2 ^ 40 % 256, n / 2 ^ 32 % 256,
   n / 2 ^ 24 % 256, n / 2 ^ 16 % 256, n / 2 ^ 8 % 256, n % 256]

/-- Big-endian bytes of a uint16 value. -/
def be16 (n : Nat) : List Nat := [n / 2 ^ 8 % 256, n % 256]

/-- Value of a big-endian byte sequence (binary.BigEndian.Uint16/Uint64). -/
def beToNat (l : List Nat) : Nat := l.foldl (fun a b => a * 256 + b) 0

/-- validateChecksum from the source: false on fewer than two bytes,
otherwise compare the stored big-endian 16-bit trailer against crc16Fast of
the preceding bytes. -/
def validateChecksum (data : List Nat) : Bool :=
  if data.length < 2 then false
  else beToNat (data.drop (data.length - 2)) == crc16Fast (data.take (data.length - 2))

/-- prepareBody from the source: 8-byte big-endian offset, payload verbatim,
then the 2-byte big-endian CRC16 of the preceding bytes. The Go error paths
are dead code (writes to a bytes.Buffer cannot fail), so the function is
modelled as total. -/
def prepareBody (offset : Nat) (data : List Nat) : List Nat :=
  (be64 offset ++ data) ++ be16 (crc16Fast (be64 offset ++ data))

/-- Backend reply to the conditional PutObject issued by Append. -/
inductive PutResult where
  | ok
  | alreadyExists
  | otherErr
  deriving DecidableEq, Repr

/-- Failure kinds of Append, one per return site of the source: the size
check, and the single wrapping applied to every PutObject failure. -/
inductive AppendErr where
  | sizeLimitExceeded
  | putFailure
  deriving DecidableEq, Repr

/-- Everything observable about one Append call: the returned value or
error, the handle length after the call, and the conditional put issued to
the store (key and body), if any. -/
structure AppendOutcome where
  result : Except AppendErr Nat
  newLength : Nat
  wrote : Option (List Char × List Nat)
  deriving Repr

/-- Append from the source, as a function of the handle length, the payload,
the size limit, and the backend's reply to the conditional put. All uint64
arithmetic wraps modulo 2^64, as in Go. Note that both put-failure causes
flow through the one generic store-failure return site. -/
def Append (pfx : List Char) (length : Nat) (data : List Nat) (fileSizeLimit : Nat)
    (put : PutResult) : AppendOutcome :=
  if (length + data.length) % 2 ^ 64 > fileSizeLimit then
    ⟨Except.error AppendErr.sizeLimitExceeded, length, none⟩
  else
    match put with
    | PutResult.ok =>
        ⟨Except.ok ((length + 1) % 2 ^ 64), (length + 1) % 2 ^ 64,
          some (getObjectKey pfx ((length + 1) % 2 ^ 64),
                prepareBody ((length + 1) % 2 ^ 64) data)⟩
    | _ =>
        ⟨Except.error AppendErr.putFailure, length,
          some (getObjectKey pfx ((length + 1) % 2 ^ 64),
                prepareBody ((length + 1) % 2 ^ 64) data)⟩

/-- Failure kinds of the validation part of Read, one per return site. -/
inductive ReadErr where
  | malformedRecord
  | offsetMismatch
  | checksumMismatch
  deriving DecidableEq, Repr

/-- Read from the source, applied to the bytes fetched for the requested
offset: reject frames shorter than 10 bytes, then an embedded offset that
differs from the requested one, then a checksum failure; otherwise return
the record with the payload data[8 : len(data)-2]. -/
def Read (offset : Nat) (data : List Nat) : Except ReadErr Record :=
  if data.length < 10 then Except.error ReadErr.malformedRecord
  else if beToNat (data.take 8) ≠ offset then Except.error ReadErr.offsetMismatch
  else if ¬ validateChecksum data then Except.error ReadErr.checksumMismatch
  else Except.ok ⟨beToNat (data.take 8), (data.drop 8).take (data.length - 10)⟩

/-- lastKey tracking inside LastRecord: the variable starts empty and, for
each listed page in order, is overwritten with the page's final key when the
page is non-empty. -/
def lastKeySel (pages : List (List (List Char))) : List Char :=
  pages.foldl (fun acc page => (page.getLast?).getD acc) []

/-- Bytewise lexicographic comparison of keys, as Go compares strings. -/
def lexLe : List Char → List Char → Bool
  | [], _ => true
  | _ :: _, [] => false
  | a :: as, b :: bs =>
    if a.toNat < b.toNat then true
    else if b.toNat < a.toNat then false
    else lexLe as bs

/-- Modelled from the spec: the lexicographically greatest key seen across
the entire scan, over all keys in all pages. -/
def maxKeySpec (keys : List (List Char)) : List Char :=
  keys.foldl (fun m k => if lexLe m k then k else m) []

/-- flipBit data p flips bit p % 8 of byte p / 8 of a byte sequence. -/
def flipBit (data : List Nat) (p : Nat) : List Nat :=
  data.set (p / 8) (data.getD (p / 8) 0 ^^^ (1 <<< (p % 8)))

/-- Handle lengths reachable by the source's state updates: a fresh handle
starts at 0, Append leaves the length at the outcome's newLength field, and
LastRecord overwrites the length with the offset decoded from the selected
key whenever the selection is non-empty and decoding succeeds. -/
inductive Reachable (pfx : List Char) : Nat → Prop where
  | init : Reachable pfx 0
  | append (L : Nat) (data : List Nat) (S : Nat) (put : PutResult) :
      Reachable pfx L → Reachable pfx (Append pfx L data S put).newLength
  | recover (L m : Nat) (pages : List (List (List Char))) :
      Reachable pfx L → lastKeySel pages ≠ [] →
      getOffsetFromKey pfx (lastKeySel pages) = Except.ok m → Reachable pfx m

/-- Characterization helper: every character of the string is an ASCII
decimal digit. -/
def allDigits (s : List Char) : Bool := s.all fun c => decide ('0' ≤ c) && decide (c ≤ '9')

/-- Value of a digit string continued from accumulator a. -/
def remValAux (a : Nat) (s : List Char) : Nat := s.foldl (fun x c => x * 10 + (c.toNat - 48)) a

/-- Decimal value of a digit string. -/
def remVal (s : List Char) : Nat := remValAux 0 s

theorem digitsBE_length (w n : Nat) : (digitsBE w n).length = w := by
  induction w with
  | zero => rfl
  | succ w ih => simp [digitsBE, ih]

theorem digitChar_toNat {d : Nat} (h : d < 10) : (digitChar d).toNat = 48 + d := by
  interval_cases d <;> decide

theorem digitChar_digit {d : Nat} (h : d < 10) : '0' ≤ digitChar d ∧ digitChar d ≤ '9' := by
  interval_cases d <;> exact ⟨by decide, by decide⟩

theorem mod_pow_succ (n w : Nat) :
    n % 10 ^ (w + 1) = n / 10 ^ w % 10 * 10 ^ w + n % 10 ^ w := by
  rw [pow_succ, Nat.mod_mul]; ring

theorem parse_digits : ∀ (w a n : Nat), a * 10 ^ w + n % 10 ^ w < 2 ^ 64 →
    parseUint64Aux a ((digitsBE w n).map digitChar) = Except.ok (a * 10 ^ w + n % 10 ^ w) := by
  intro w
  induction w with
  | zero =>
    intro a n h
    simp [digitsBE, parseUint64Aux, Nat.mod_one]
  | succ w ih =>
    intro a n h
    have hd : n / 10 ^ w % 10 < 10 := Nat.mod_lt _ (by norm_num)
    have hsplit := mod_pow_succ n w
    have hval : (a * 10 + n / 10 ^ w % 10) * 10 ^ w + n % 10 ^ w
        = a * 10 ^ (w + 1) + n % 10 ^ (w + 1) := by
      rw [hsplit]; ring
    simp only [digitsBE, List.map_cons, parseUint64Aux]
    rw [if_pos (digitChar_digit hd), digitChar_toNat hd]
    have hv : 48 + n / 10 ^ w % 10 - 48 = n / 10 ^ w % 10 := by omega
    rw [hv]
    have hlt : (a * 10 + n / 10 ^ w % 10) * 10 ^ w + n % 10 ^ w < 2 ^ 64 := by
      rw [hval]; exact h
    have hsmall : a * 10 + n / 10 ^ w % 10 < 2 ^ 64 := by
      have h1 : a * 10 + n / 10 ^ w % 10 ≤ (a * 10 + n / 10 ^ w % 10) * 10 ^ w := by
        exact Nat.le_mul_of_pos_right _ (Nat.pos_pow_of_pos w (by norm_num))
      omega
    rw [if_pos hsmall, ih _ n hlt, hval]

theorem parseUint64_digits (n : Nat) (h : n < 2 ^ 64) :
    parseUint64 ((digitsBE 20 n).map digitChar) = Except.ok n := by
  have hlen : ((digitsBE 20 n).map digitChar).length = 20 := by
    simp [digitsBE_length]
  have hne : ((digitsBE 20 n).map digitChar).isEmpty = false := by
    cases hD : (digitsBE 20 n).map digitChar with
    | nil => rw [hD] at hlen; simp at hlen
    | cons x xs => rfl
  have hmod : n % 10 ^ 20 = n := Nat.mod_eq_of_lt (lt_trans h (by norm_num))
  have h0 : 0 * 10 ^ 20 + n % 10 ^ 20 = n := by rw [hmod]; ring
  rw [parseUint64, if_neg (by simp [hne])]
  rw [parse_digits 20 0 n (by rw [h0]; exact h), h0]

theorem c7_key_length (pfx : List Char) (o : Nat) :
    (getObjectKey pfx o).length = pfx.length + 21 := by
  simp [getObjectKey, digitsBE_length]

theorem c7_key_drop (pfx : List Char) (o : Nat) :
    (getObjectKey pfx o).drop (pfx.length + 1) = (digitsBE 20 o).map digitChar := by
  have h : getObjectKey pfx o = (pfx ++ ['/']) ++ (digitsBE 20 o).map digitChar := by
    simp [getObjectKey]
  rw [h]
  have h2 : (pfx ++ ['/']).length = pfx.length + 1 := by simp
  rw [← h2, List.drop_left]

/-- C7: KeyCodec round trip — decoding the encoded key of any valid uint64
offset yields that offset with no error, and encoding is total with a key of
the fixed width prefix-length + 1 + 20. -/
theorem c7_key_roundtrip (pfx : List Char) (o : Nat) (h : o < 2 ^ 64) :
    getOffsetFromKey pfx (getObjectKey pfx o) = Except.ok o ∧
    (getObjectKey pfx o).length = pfx.length + 21 := by
  refine ⟨?_, c7_key_length pfx o⟩
  rw [getOffsetFromKey, if_neg (by rw [c7_key_length]; omega)]
  rw [c7_key_drop, parseUint64_digits o h]

/-- C7 witness: concrete round trip at offset 1 with prefix "w". -/
theorem c7_witness :
    getOffsetFromKey ['w'] (getObjectKey ['w'] 1) = Except.ok 1 ∧
    (getObjectKey ['w'] 1).length = ['w'].length + 21 :=
  c7_key_roundtrip ['w'] 1 (by norm_num)

theorem remValAux_le : ∀ (s : List Char) (a : Nat), a ≤ remValAux a s := by
  intro s
  induction s with
  | nil => intro a; exact le_refl a
  | cons c cs ih =>
    intro a
    have h1 : a ≤ a * 10 + (c.toNat - 48) := by omega
    exact le_trans h1 (ih _)

theorem parseUint64Aux_eq : ∀ (s : List Char) (a : Nat), a < 2 ^ 64 →
    parseUint64Aux a s =
      if allDigits s = true ∧ remValAux a s < 2 ^ 64 then Except.ok (remValAux a s)
      else Except.error KeyErr.malformedKey := by
  intro s
  induction s with
  | nil =>
    intro a ha
    simp only [parseUint64Aux, allDigits, List.all_nil, remValAux, List.foldl_nil, true_and]
    rw [if_pos ha]
  | cons c cs ih =>
    intro a ha
    by_cases hc : '0' ≤ c ∧ c ≤ '9'
    · by_cases hv : a * 10 + (c.toNat - 48) < 2 ^ 64
      · have hrec : remValAux a (c :: cs) = remValAux (a * 10 + (c.toNat - 48)) cs := rfl
        simp only [parseUint64Aux, if_pos hc, if_pos hv]
        rw [ih _ hv, hrec]
        have hall : allDigits (c :: cs) = allDigits cs := by
          simp [allDigits, hc.1, hc.2]
        rw [hall]
      · have hbig : 2 ^ 64 ≤ remValAux a (c :: cs) :=
          le_trans (le_of_not_lt hv) (remValAux_le cs _)
        simp only [parseUint64Aux, if_pos hc, if_neg hv]
        rw [if_neg]
        rintro ⟨-, h2⟩
        omega
    · simp only [parseUint64Aux, if_neg hc]
      rw [if_neg]
      rintro ⟨hall, -⟩
      simp only [allDigits, List.all_cons, Bool.and_eq_true, decide_eq_true_eq] at hall
      exact hc ⟨hall.1.1, hall.1.2⟩

theorem parseUint64Aux_ne_oob : ∀ (s : List Char) (a : Nat),
    parseUint64Aux a s ≠ Except.error KeyErr.outOfBounds := by
  intro s
  induction s with
  | nil => intro a; simp [parseUint64Aux]
  | cons c cs ih =>
    intro a
    simp only [parseUint64Aux]
    split
    · split
      · exact ih _
      · simp
    · simp

theorem parseUint64_ne_oob (s : List Char) :
    parseUint64 s ≠ Except.error KeyErr.outOfBounds := by
  rw [parseUint64]
  split
  · simp
  · exact parseUint64Aux_ne_oob s 0

/-- C8 counterexample: with prefix "wal", the key "wal/1" has a one-digit
remainder — not the expected 20-digit width — yet decode accepts it and
returns offset 1 instead of failing with MalformedKey. -/
theorem c8_counterexample :
    getOffsetFromKey ['w', 'a', 'l'] ['w', 'a', 'l', '/', '1'] = Except.ok 1 ∧
    (['w', 'a', 'l', '/', '1'].drop 4).length ≠ 20 :=
  ⟨rfl, by decide⟩

/-- C8 amended: decode fails with MalformedKey exactly when the remainder
after the prefix is empty, contains a non-digit character, or encodes a value
outside 64 bits; the fixed 20-digit width is NOT checked, so any accepted
digit string of any width decodes. -/
theorem c8_decode_characterization (pfx key : List Char) (h : pfx.length + 1 ≤ key.length) :
    getOffsetFromKey pfx key = Except.error KeyErr.malformedKey ↔
      ¬(key.drop (pfx.length + 1) ≠ [] ∧ allDigits (key.drop (pfx.length + 1)) = true ∧
        remVal (key.drop (pfx.length + 1)) < 2 ^ 64) := by
  rw [getOffsetFromKey, if_neg (by omega)]
  rw [parseUint64]
  by_cases hs : (key.drop (pfx.length + 1)).isEmpty
  · rw [if_pos (by simp [hs])]
    have : key.drop (pfx.length + 1) = [] := by
      rwa [List.isEmpty_iff] at hs
    simp [this]
  · rw [if_neg (by simp_all), parseUint64Aux_eq _ 0 (by norm_num)]
    have hne : key.drop (pfx.length + 1) ≠ [] := by
      intro hcon
      rw [hcon] at hs
      exact hs rfl
    by_cases hcond : allDigits (key.drop (pfx.length + 1)) = true ∧
        remValAux 0 (key.drop (pfx.length + 1)) < 2 ^ 64
    · rw [if_pos hcond]
      simp only [remVal]
      constructor
      · intro hcon
        exact Except.noConfusion hcon
      · intro hcon
        exact absurd ⟨hne, hcond.1, hcond.2⟩ hcon
    · rw [if_neg hcond]
      simp only [remVal]
      constructor
      · intro _
        rintro ⟨-, h1, h2⟩
        exact hcond ⟨h1, h2⟩
      · intro _
        trivial

/-- C8 witness: a non-digit remainder is rejected with MalformedKey. -/
theorem c8_witness :
    getOffsetFromKey ['w'] ['w', '/', 'x'] = Except.error KeyErr.malformedKey :=
  (c8_decode_characterization ['w'] ['w', '/', 'x'] (by decide)).mpr (by decide)

/-- C10: decode is not total — for the key equal to the bare prefix (length
at most the prefix length) the slice key[len(prefix)+1:] is out of bounds, so
the panic branch is reachable; under the precondition that the key starts
with prefix ++ "/" that branch is unreachable. -/
theorem c10_decode_partiality :
    (∀ pfx : List Char, getOffsetFromKey pfx pfx = Except.error KeyErr.outOfBounds) ∧
    (∀ pfx key : List Char, (∃ rest, key = pfx ++ '/' :: rest) →
      getOffsetFromKey pfx key ≠ Except.error KeyErr.outOfBounds) := by
  constructor
  · intro pfx
    rw [getOffsetFromKey, if_pos (by omega)]
  · rintro pfx key ⟨rest, hrest⟩
    have hlen : pfx.length + 1 ≤ key.length := by
      rw [hrest]
      simp
    rw [getOffsetFromKey, if_neg (by omega)]
    exact parseUint64_ne_oob _

/-- C10 witness: the panic branch fires on the bare prefix "w" and is
avoided on the well-formed key "w/1". -/
theorem c10_witness :
    getOffsetFromKey ['w'] ['w'] = Except.error KeyErr.outOfBounds ∧
    getOffsetFromKey ['w'] ['w', '/', '1'] ≠ Except.error KeyErr.outOfBounds :=
  ⟨c10_decode_partiality.1 ['w'], c10_decode_partiality.2 ['w'] ['w', '/', '1'] ⟨['1'], rfl⟩⟩

/-- C2 counterexample: losing the conditional-create race produces an outcome
identical, byte for byte, to a generic store failure — the same putFailure
kind, with no distinguished Conflict variant anywhere in the result. -/
theorem c2_counterexample :
    Append ['w'] 0 [104] 1000 PutResult.alreadyExists
      = Append ['w'] 0 [104] 1000 PutResult.otherErr ∧
    (Append ['w'] 0 [104] 1000 PutResult.alreadyExists).result
      = Except.error AppendErr.putFailure :=
  ⟨rfl, rfl⟩

/-- C2 amended: when the conditional create fails because the key already
exists, Append fails with the same generic store-failure kind used for every
other store error (it does not distinguish a Conflict kind), and it does
leave cachedLength unchanged. -/
theorem c2_conflict_not_distinguished (pfx : List Char) (L : Nat) (data : List Nat)
    (S : Nat) (h : (L + data.length) % 2 ^ 64 ≤ S) :
    (Append pfx L data S PutResult.alreadyExists).result = Except.error AppendErr.putFailure ∧
    (Append pfx L data S PutResult.alreadyExists).newLength = L ∧
    Append pfx L data S PutResult.alreadyExists = Append pfx L data S PutResult.otherErr := by
  have hc : ¬(L + data.length) % 2 ^ 64 > S := not_lt.mpr h
  simp only [Append, if_neg hc]
  exact ⟨by trivial, by trivial, by trivial⟩

/-- C2 witness: the amended behaviour at a concrete state. -/
theorem c2_witness :
    (Append ['w'] 3 [104] 1000 PutResult.alreadyExists).result
      = Except.error AppendErr.putFailure ∧
    (Append ['w'] 3 [104] 1000 PutResult.alreadyExists).newLength = 3 ∧
    Append ['w'] 3 [104] 1000 PutResult.alreadyExists
      = Append ['w'] 3 [104] 1000 PutResult.otherErr :=
  c2_conflict_not_distinguished ['w'] 3 [104] 1000 (by norm_num)

/-- C3 counterexample: at cachedLength 2^64 - 1 with a 1-byte payload and
limit 1000, the unbounded sum exceeds the limit, yet the uint64 size check
wraps to 0 and Append does not fail with SizeLimitExceeded — it succeeds,
returning offset 0. -/
theorem c3_counterexample :
    (2 ^ 64 - 1) + 1 > 1000 ∧
    (Append ['w'] (2 ^ 64 - 1) [97] 1000 PutResult.ok).result = Except.ok 0 :=
  ⟨by norm_num, rfl⟩

/-- C3 amended: Append fails with SizeLimitExceeded iff the uint64 sum
(cachedLength + len(payload)) mod 2^64 exceeds the limit (the unbounded-sum
form holds whenever that sum does not wrap), and on that failure it issues no
store write and leaves cachedLength unchanged. -/
theorem c3_size_budget_mod (pfx : List Char) (L : Nat) (data : List Nat) (S : Nat)
    (put : PutResult) :
    ((Append pfx L data S put).result = Except.error AppendErr.sizeLimitExceeded ↔
      (L + data.length) % 2 ^ 64 > S) ∧
    ((L + data.length) % 2 ^ 64 > S →
      (Append pfx L data S put).wrote = none ∧ (Append pfx L data S put).newLength = L) := by
  by_cases hc : (L + data.length) % 2 ^ 64 > S
  · refine ⟨⟨fun _ => hc, fun _ => ?_⟩, fun _ => ⟨?_, ?_⟩⟩ <;> simp only [Append, if_pos hc]
  · refine ⟨⟨fun hres => ?_, fun hgt => absurd hgt hc⟩, fun hgt => absurd hgt hc⟩
    exfalso
    cases put <;> simp only [Append, if_neg hc] at hres <;> simp at hres

/-- C3 witness: a concrete size-limit failure issues no write and keeps the
cached length. -/
theorem c3_witness :
    (Append ['w'] 0 [104] 0 PutResult.ok).wrote = none ∧
    (Append ['w'] 0 [104] 0 PutResult.ok).newLength = 0 :=
  (c3_size_budget_mod ['w'] 0 [104] 0 PutResult.ok).2 (by norm_num)

theorem validateChecksum_eq (data : List Nat) (h : 2 ≤ data.length) :
    validateChecksum data
      = (beToNat (data.drop (data.length - 2)) == crc16Fast (data.take (data.length - 2))) := by
  rw [validateChecksum, if_neg (by omega)]

/-- C4: Read's validation of the fetched frame — MalformedRecord on frames
shorter than 10 bytes; OffsetMismatch when the embedded 8-byte big-endian
offset differs from the requested one; ChecksumMismatch when the trailing
2 bytes differ from the CRC16 of the preceding bytes; and a Record with the
requested offset and the payload strictly between the offset field and the
checksum exactly when all three checks pass. -/
theorem c4_read_validation (offset : Nat) (data : List Nat) :
    (data.length < 10 → Read offset data = Except.error ReadErr.malformedRecord) ∧
    (10 ≤ data.length → beToNat (data.take 8) ≠ offset →
      Read offset data = Except.error ReadErr.offsetMismatch) ∧
    (10 ≤ data.length → beToNat (data.take 8) = offset →
      beToNat (data.drop (data.length - 2)) ≠ crc16Fast (data.take (data.length - 2)) →
      Read offset data = Except.error ReadErr.checksumMismatch) ∧
    (∀ r, Read offset data = Except.ok r →
      10 ≤ data.length ∧ beToNat (data.take 8) = offset ∧
      beToNat (data.drop (data.length - 2)) = crc16Fast (data.take (data.length - 2)) ∧
      r = ⟨offset, (data.drop 8).take (data.length - 10)⟩) := by
  refine ⟨?_, ?_, ?_, ?_⟩
  · intro h
    rw [Read, if_pos h]
  · intro h hoff
    rw [Read, if_neg (by omega), if_pos hoff]
  · intro h hoff hcrc
    have hval : validateChecksum data = false := by
      rw [validateChecksum_eq data (by omega)]
      simp [hcrc]
    rw [Read, if_neg (by omega), if_neg (not_not_intro hoff), if_pos (by simp [hval])]
  · intro r hr
    rw [Read] at hr
    by_cases h1 : data.length < 10
    · rw [if_pos h1] at hr
      cases hr
    rw [if_neg h1] at hr
    by_cases h2 : beToNat (data.take 8) ≠ offset
    · rw [if_pos h2] at hr
      cases hr
    rw [if_neg h2] at hr
    push_neg at h2
    by_cases h3 : validateChecksum data = true
    · rw [if_neg (by simp [h3])] at hr
      cases hr
      have hcrc : beToNat (data.drop (data.length - 2))
          = crc16Fast (data.take (data.length - 2)) := by
        rw [validateChecksum_eq data (by omega)] at h3
        exact eq_of_beq h3
      exact ⟨by omega, h2, hcrc, by rw [h2]⟩
    · rw [if_pos (by simp [h3])] at hr
      cases hr

/-- C4 witness: the empty frame is rejected as MalformedRecord. -/
theorem c4_witness : Read 5 [] = Except.error ReadErr.malformedRecord :=
  (c4_read_validation 5 []).1 (by decide)

/-- C5: on a fresh log, Append "hello" with limit 1000 returns offset 1,
writes at key pfx/00000000000000000001 exactly the 15 bytes
8-byte big-endian 1 ++ "hello" ++ big-endian CRC-16 (poly 0x1021, seed
0xCACA) of those 13 bytes, and Read 1 on that frame returns the record with
offset 1 and payload "hello". -/
theorem c5_concrete_example (pfx : List Char) :
    Append pfx 0 [104, 101, 108, 108, 111] 1000 PutResult.ok =
      ⟨Except.ok 1, 1,
        some (pfx ++ ['/', '0', '0', '0', '0', '0', '0', '0', '0', '0', '0', '0', '0', '0',
                      '0', '0', '0', '0', '0', '0', '1'],
              [0, 0, 0, 0, 0, 0, 0, 1, 104, 101, 108, 108, 111, 130, 141])⟩ ∧
    ([0, 0, 0, 0, 0, 0, 0, 1, 104, 101, 108, 108, 111, 130, 141] : List Nat).length = 15 ∧
    be16 (crc16Fast [0, 0, 0, 0, 0, 0, 0, 1, 104, 101, 108, 108, 111]) = [130, 141] ∧
    Read 1 [0, 0, 0, 0, 0, 0, 0, 1, 104, 101, 108, 108, 111, 130, 141] =
      Except.ok ⟨1, [104, 101, 108, 108, 111]⟩ :=
  ⟨rfl, rfl, rfl, rfl⟩

theorem append_newLength (pfx : List Char) (L : Nat) (data : List Nat) (S : Nat)
    (put : PutResult) :
    (Append pfx L data S put).newLength = L ∨
    (Append pfx L data S put).newLength = (L + 1) % 2 ^ 64 := by
  by_cases hc : (L + data.length) % 2 ^ 64 > S
  · left
    simp only [Append, if_pos hc]
  · cases put
    · right
      simp only [Append, if_neg hc]
    · left
      simp only [Append, if_neg hc]
    · left
      simp only [Append, if_neg hc]

theorem parseUint64Aux_ok_lt (s : List Char) (a m : Nat) (ha : a < 2 ^ 64)
    (h : parseUint64Aux a s = Except.ok m) : m < 2 ^ 64 := by
  rw [parseUint64Aux_eq s a ha] at h
  by_cases hc : allDigits s = true ∧ remValAux a s < 2 ^ 64
  · rw [if_pos hc] at h
    cases h
    exact hc.2
  · rw [if_neg hc] at h
    cases h

theorem getOffsetFromKey_ok_lt (pfx key : List Char) (m : Nat)
    (h : getOffsetFromKey pfx key = Except.ok m) : m < 2 ^ 64 := by
  rw [getOffsetFromKey] at h
  split at h
  · cases h
  · rw [parseUint64] at h
    split at h
    · cases h
    · exact parseUint64Aux_ok_lt _ 0 m (by norm_num) h

theorem reachable_lt {pfx : List Char} {L : Nat} (h : Reachable pfx L) : L < 2 ^ 64 := by
  induction h with
  | init => norm_num
  | append L data S put _ ih =>
    rcases append_newLength pfx L data S put with h1 | h1 <;> rw [h1]
    · exact ih
    · exact Nat.mod_lt _ (by norm_num)
  | recover L m pages _ hne hdec ih => exact getOffsetFromKey_ok_lt _ _ _ hdec

/-- C9 counterexample: the recovery path can set cachedLength to 2^64 - 1
(listing a single page holding the key that encodes 2^64 - 1), a reachable
handle state from which a successful Append wraps and returns offset 0. -/
theorem c9_counterexample :
    Reachable ['w'] (2 ^ 64 - 1) ∧
    (Append ['w'] (2 ^ 64 - 1) [97] 1000 PutResult.ok).result = Except.ok 0 := by
  constructor
  · exact Reachable.recover 0 (2 ^ 64 - 1) [[getObjectKey ['w'] (2 ^ 64 - 1)]]
      Reachable.init (by decide) (by rfl)
  · rfl

/-- C9 amended: every offset returned by a successful Append from a reachable
handle state is at least 1, except from the single state
cachedLength = 2^64 - 1 (reachable only through recovery of a maximal key or
2^64 - 1 successful appends), where the uint64 increment wraps to 0. -/
theorem c9_offset_positive (pfx : List Char) (L : Nat) (data : List Nat) (S : Nat)
    (put : PutResult) (o : Nat) (hr : Reachable pfx L) (hL : L ≠ 2 ^ 64 - 1)
    (h : (Append pfx L data S put).result = Except.ok o) : 1 ≤ o := by
  have hlt : L < 2 ^ 64 := reachable_lt hr
  by_cases hc : (L + data.length) % 2 ^ 64 > S
  · simp only [Append, if_pos hc] at h
    cases h
  · cases put <;> simp only [Append, if_neg hc] at h
    · cases h
      have hsucc : L + 1 < 2 ^ 64 := by omega
      rw [Nat.mod_eq_of_lt hsucc]
      omega
    · cases h
    · cases h

/-- C9 witness: a successful append from the fresh state returns offset 1. -/
theorem c9_witness : 1 ≤ 1 :=
  c9_offset_positive ['w'] 0 [104] 1000 PutResult.ok 1 Reachable.init (by norm_num) rfl

theorem lexLe_refl (l : List Char) : lexLe l l = true := by
  induction l with
  | nil => rfl
  | cons a as ih => simp [lexLe, ih]

theorem lastKeySel_foldl : ∀ (pages : List (List (List Char))) (acc : List Char),
    pages.foldl (fun a page => (page.getLast?).getD a) acc = (pages.flatten.getLast?).getD acc := by
  intro pages
  induction pages with
  | nil => intro acc; rfl
  | cons page rest ih =>
    intro acc
    simp only [List.foldl_cons, List.flatten_cons]
    rw [ih]
    by_cases hre : rest.flatten = []
    · rw [hre, List.append_nil]
      rfl
    · rw [List.getLast?_append_of_ne_nil page hre]
      obtain ⟨x, hx⟩ : ∃ x, rest.flatten.getLast? = some x := by
        cases h : rest.flatten.getLast? with
        | none => exact absurd (List.getLast?_eq_none_iff.mp h) hre
        | some x => exact ⟨x, rfl⟩
      rw [hx]
      rfl

theorem lastKeySel_eq (pages : List (List (List Char))) :
    lastKeySel pages = (pages.flatten.getLast?).getD [] :=
  lastKeySel_foldl pages []

theorem lastKeySel_mem (pages : List (List (List Char))) (h : pages.flatten ≠ []) :
    lastKeySel pages ∈ pages.flatten := by
  rw [lastKeySel_eq, List.getLast?_eq_getLast _ h, Option.getD_some]
  exact List.getLast_mem h

theorem sorted_all_le_getLast : ∀ (l : List (List Char)),
    l.Pairwise (fun a b => lexLe a b = true) →
    ∀ k ∈ l, ∀ hne : l ≠ [], lexLe k (l.getLast hne) = true := by
  intro l
  induction l with
  | nil => intro _ k hk; cases hk
  | cons a t ih =>
    intro hp k hk hne
    rw [List.pairwise_cons] at hp
    cases t with
    | nil =>
      have hka : k = a := by simpa using hk
      rw [hka, List.getLast_singleton]
      exact lexLe_refl a
    | cons b t' =>
      rw [List.getLast_cons (by simp)]
      rcases List.mem_cons.mp hk with rfl | hk'
      · exact hp.1 _ (List.getLast_mem _)
      · exact ih hp.2 k hk' (by simp)

/-- C1 counterexample: two singleton pages listed out of global order — the
code selects the last element of the last non-empty page ("a"), while "b" is
a key in the pages that is strictly greater, so the selected key is not the
lexicographic maximum of all keys in all pages. -/
theorem c1_counterexample :
    lastKeySel [[['b']], [['a']]] = ['a'] ∧
    ['b'] ∈ ([[['b']], [['a']]] : List (List (List Char))).flatten ∧
    lexLe ['b'] ['a'] = false ∧
    maxKeySpec ([[['b']], [['a']]] : List (List (List Char))).flatten = ['b'] :=
  ⟨rfl, by decide, rfl, rfl⟩

/-- C1 amended: LastRecord selects the last element of the last non-empty
page (it keeps no running maximum); only under the backend invariant that
the concatenation of all pages is fully lexicographically sorted is that
selected key the greatest key of the entire scan. -/
theorem c1_last_of_sorted (pages : List (List (List Char)))
    (hs : pages.flatten.Pairwise (fun a b => lexLe a b = true))
    (hne : pages.flatten ≠ []) :
    lastKeySel pages ∈ pages.flatten ∧
    ∀ k ∈ pages.flatten, lexLe k (lastKeySel pages) = true := by
  refine ⟨lastKeySel_mem pages hne, ?_⟩
  intro k hk
  have hsel : lastKeySel pages = pages.flatten.getLast hne := by
    rw [lastKeySel_eq, List.getLast?_eq_getLast _ hne, Option.getD_some]
  rw [hsel]
  exact sorted_all_le_getLast _ hs k hk hne

/-- C1 witness: on a sorted two-page listing the selected key is the
maximum. -/
theorem c1_witness :
    lastKeySel [[['a']], [['b']]] ∈ ([[['a']], [['b']]] : List (List (List Char))).flatten ∧
    ∀ k ∈ ([[['a']], [['b']]] : List (List (List Char))).flatten,
      lexLe k (lastKeySel [[['a']], [['b']]]) = true :=
  c1_last_of_sorted [[['a']], [['b']]] (by decide) (by decide)

theorem and_pow15_iff (c : Nat) : c &&& 0x8000 ≠ 0 ↔ c.testBit 15 = true := by
  rw [show (0x8000 : Nat) = 2 ^ 15 by norm_num, Nat.and_two_pow]
  cases h : c.testBit 15 <;> simp [h]

theorem crcShift_eq (c : Nat) :
    crcShift c = ((c <<< 1) % 2 ^ 16) ^^^ (if c.testBit 15 then 0x1021 else 0) := by
  rw [crcShift]
  by_cases h : c.testBit 15
  · rw [if_pos ((and_pow15_iff c).mpr h), if_pos h]
  · rw [if_neg (fun hc => h ((and_pow15_iff c).mp hc)), if_neg h, Nat.xor_zero]

theorem shl_mod_xor (a b : Nat) :
    ((a ^^^ b) <<< 1) % 2 ^ 16 = ((a <<< 1) % 2 ^ 16) ^^^ ((b <<< 1) % 2 ^ 16) := by
  apply Nat.eq_of_testBit_eq
  intro i
  rw [Nat.testBit_xor, Nat.testBit_mod_two_pow, Nat.testBit_mod_two_pow,
    Nat.testBit_mod_two_pow, Nat.testBit_shiftLeft, Nat.testBit_shiftLeft,
    Nat.testBit_shiftLeft, Nat.testBit_xor, Bool.and_xor_distrib_left,
    Bool.and_xor_distrib_left]

theorem if_xor_split (ta tb : Bool) :
    (if (ta ^^ tb) = true then (0x1021 : Nat) else 0)
      = (if ta = true then (0x1021 : Nat) else 0) ^^^ (if tb = true then (0x1021 : Nat) else 0) := by
  cases ta <;> cases tb <;> simp

theorem xor_left_comm (a b c : Nat) : a ^^^ (b ^^^ c) = b ^^^ (a ^^^ c) := by
  rw [← Nat.xor_assoc, Nat.xor_comm a b, Nat.xor_assoc]

theorem crcShift_linear (a b : Nat) : crcShift (a ^^^ b) = crcShift a ^^^ crcShift b := by
  rw [crcShift_eq, crcShift_eq, crcShift_eq, shl_mod_xor, Nat.testBit_xor, if_xor_split]
  simp only [Nat.xor_assoc, Nat.xor_comm, xor_left_comm]

theorem crcShift_lt (c : Nat) : crcShift c < 2 ^ 16 := by
  rw [crcShift]
  split
  · exact Nat.xor_lt_two_pow (Nat.mod_lt _ (by norm_num)) (by norm_num)
  · exact Nat.mod_lt _ (by norm_num)

theorem testBit15_false_lt {c : Nat} (h16 : c < 2 ^ 16) (hb : c.testBit 15 = false) :
    c < 2 ^ 15 := by
  rw [Nat.testBit_to_div_mod] at hb
  simp at hb
  omega

theorem crcShift_ne_zero {c : Nat} (h16 : c < 2 ^ 16) (hc : c ≠ 0) : crcShift c ≠ 0 := by
  rw [crcShift_eq]
  by_cases hb : c.testBit 15
  · rw [if_pos hb]
    intro h0
    have he : c <<< 1 % 2 ^ 16 = 0x1021 := Nat.xor_eq_zero.mp h0
    rw [Nat.shiftLeft_eq] at he
    omega
  · rw [if_neg hb, Nat.xor_zero]
    have hlt : c < 2 ^ 15 := testBit15_false_lt h16 (by simpa using hb)
    rw [Nat.shiftLeft_eq, Nat.mod_eq_of_lt (by omega)]
    intro h0
    rcases Nat.mul_eq_zero.mp h0 with h | h <;> omega

theorem xor_cancel_left {v a b : Nat} (h : v ^^^ a = v ^^^ b) : a = b := by
  have h2 := congrArg (fun x => v ^^^ x) h
  simpa [← Nat.xor_assoc, Nat.xor_self, Nat.zero_xor] using h2

theorem xor_cancel_right {v a b : Nat} (h : a ^^^ v = b ^^^ v) : a = b := by
  apply xor_cancel_left (v := v)
  rw [Nat.xor_comm v a, Nat.xor_comm v b]
  exact h

theorem xor_ne_self {v m : Nat} (hm : m ≠ 0) : v ^^^ m ≠ v := by
  intro h
  apply hm
  have h2 : v ^^^ m = v ^^^ 0 := by rw [Nat.xor_zero]; exact h
  exact xor_cancel_left h2

theorem crcShift_inj {a b : Nat} (ha : a < 2 ^ 16) (hb : b < 2 ^ 16)
    (h : crcShift a = crcShift b) : a = b := by
  by_contra hne
  have hx : a ^^^ b ≠ 0 := fun h0 => hne (Nat.xor_eq_zero.mp h0)
  have h1 : crcShift (a ^^^ b) = 0 := by
    rw [crcShift_linear, h, Nat.xor_self]
  exact crcShift_ne_zero (Nat.xor_lt_two_pow ha hb) hx h1

theorem crcShiftN_lt : ∀ (n c : Nat), c < 2 ^ 16 → crcShiftN n c < 2 ^ 16 := by
  intro n
  induction n with
  | zero => intro c h; exact h
  | succ n ih =>
    intro c _
    show crcShiftN n (crcShift c) < 2 ^ 16
    exact ih _ (crcShift_lt c)

theorem crcShiftN_inj : ∀ (n a b : Nat), a < 2 ^ 16 → b < 2 ^ 16 →
    crcShiftN n a = crcShiftN n b → a = b := by
  intro n
  induction n with
  | zero => intro a b _ _ h; exact h
  | succ n ih =>
    intro a b ha hb h
    have h2 : crcShiftN n (crcShift a) = crcShiftN n (crcShift b) := h
    exact crcShift_inj ha hb (ih _ _ (crcShift_lt a) (crcShift_lt b) h2)

theorem crcByte_lt (c b : Nat) : crcByte c b < 2 ^ 16 := by
  have h : crcByte c b = crcShiftN 7 (crcShift (c ^^^ (b <<< 8))) := rfl
  rw [h]
  exact crcShiftN_lt 7 _ (crcShift_lt _)

theorem shl8_lt {v : Nat} (hv : v < 256) : v <<< 8 < 2 ^ 16 := by
  rw [Nat.shiftLeft_eq]
  omega

theorem crcByte_state_inj {a b v : Nat} (ha : a < 2 ^ 16) (hb : b < 2 ^ 16)
    (hv : v < 256) (h : crcByte a v = crcByte b v) : a = b := by
  have h2 := crcShiftN_inj 8 _ _ (Nat.xor_lt_two_pow ha (shl8_lt hv))
    (Nat.xor_lt_two_pow hb (shl8_lt hv)) h
  exact xor_cancel_right h2

theorem shl8_xor (v m : Nat) : (v ^^^ m) <<< 8 = (v <<< 8) ^^^ (m <<< 8) := by
  apply Nat.eq_of_testBit_eq
  intro i
  simp [Nat.testBit_shiftLeft, Nat.testBit_xor, Bool.and_xor_distrib_left]

theorem one_shl_ne_zero (k : Nat) : 1 <<< k ≠ 0 := by
  rw [Nat.shiftLeft_eq, Nat.one_mul]
  exact Nat.pos_iff_ne_zero.mp (Nat.pos_pow_of_pos k (by norm_num))

theorem one_shl_lt_256 {k : Nat} (hk : k < 8) : 1 <<< k < 256 := by
  rw [Nat.shiftLeft_eq, Nat.one_mul]
  calc 2 ^ k < 2 ^ 8 := Nat.pow_lt_pow_right (by norm_num) hk
  _ = 256 := by norm_num

theorem xor_lt_256 {a b : Nat} (ha : a < 256) (hb : b < 256) : a ^^^ b < 256 := by
  have h8 : (256 : Nat) = 2 ^ 8 := by norm_num
  rw [h8] at ha hb ⊢
  exact Nat.xor_lt_two_pow ha hb

theorem crcByte_byte_ne {s v m : Nat} (hs : s < 2 ^ 16) (hv : v < 256) (hm : m ≠ 0)
    (hm2 : m < 256) : crcByte s (v ^^^ m) ≠ crcByte s v := by
  intro h
  have hvm : v ^^^ m < 256 := xor_lt_256 hv hm2
  have harg : s ^^^ ((v ^^^ m) <<< 8) = s ^^^ (v <<< 8) :=
    crcShiftN_inj 8 _ _ (Nat.xor_lt_two_pow hs (shl8_lt hvm))
      (Nat.xor_lt_two_pow hs (shl8_lt hv)) h
  have h2 : (v ^^^ m) <<< 8 = v <<< 8 := xor_cancel_left harg
  rw [shl8_xor] at h2
  have h3 : m <<< 8 = 0 := by
    have h4 : (v <<< 8) ^^^ (m <<< 8) = (v <<< 8) ^^^ 0 := by rw [Nat.xor_zero]; exact h2
    exact xor_cancel_left h4
  rw [Nat.shiftLeft_eq] at h3
  rcases Nat.mul_eq_zero.mp h3 with h4 | h4
  · exact hm h4
  · exact absurd h4 (by norm_num)

theorem crcFold_lt : ∀ (l : List Nat) (s : Nat), s < 2 ^ 16 →
    List.foldl crcByte s l < 2 ^ 16 := by
  intro l
  induction l with
  | nil => intro s h; exact h
  | cons b t ih => intro s _; exact ih _ (crcByte_lt s b)

theorem crc16Fast_lt (l : List Nat) : crc16Fast l < 2 ^ 16 :=
  crcFold_lt l 0xCACA (by norm_num)

theorem crcFold_inj : ∀ (l : List Nat), (∀ x ∈ l, x < 256) → ∀ (a b : Nat),
    a < 2 ^ 16 → b < 2 ^ 16 → a ≠ b →
    List.foldl crcByte a l ≠ List.foldl crcByte b l := by
  intro l
  induction l with
  | nil => intro _ a b _ _ hne h; exact hne h
  | cons v t ih =>
    intro hl a b ha hb hne
    simp only [List.foldl_cons]
    refine ih (fun x hx => hl x (List.mem_cons_of_mem _ hx)) _ _
      (crcByte_lt a v) (crcByte_lt b v) ?_
    intro hcon
    exact hne (crcByte_state_inj ha hb (hl v (List.mem_cons_self v t)) hcon)

theorem crcFold_set_ne : ∀ (l : List Nat) (i : Nat) (s : Nat), s < 2 ^ 16 →
    (∀ x ∈ l, x < 256) → i < l.length → ∀ k, k < 8 →
    List.foldl crcByte s (l.set i (l.getD i 0 ^^^ (1 <<< k))) ≠ List.foldl crcByte s l := by
  intro l
  induction l with
  | nil => intro i s _ _ hi; exact absurd hi (by simp)
  | cons v t ih =>
    intro i s hs hl hi k hk
    cases i with
    | zero =>
      rw [List.getD_cons_zero, List.set_cons_zero]
      simp only [List.foldl_cons]
      refine crcFold_inj t (fun x hx => hl x (List.mem_cons_of_mem _ hx)) _ _
        (crcByte_lt s _) (crcByte_lt s v) ?_
      exact crcByte_byte_ne hs (hl v (List.mem_cons_self v t)) (one_shl_ne_zero k)
        (one_shl_lt_256 hk)
    | succ i' =>
      rw [List.getD_cons_succ, List.set_cons_succ]
      simp only [List.foldl_cons]
      exact ih i' (crcByte s v) (crcByte_lt s v)
        (fun x hx => hl x (List.mem_cons_of_mem _ hx)) (by simpa using hi) k hk

theorem be64_bytes (n : Nat) : ∀ x ∈ be64 n, x < 256 := by
  intro x hx
  simp [be64] at hx
  rcases hx with rfl | rfl | rfl | rfl | rfl | rfl | rfl | rfl <;> omega

theorem beToNat_be16 {c : Nat} (h : c < 2 ^ 16) : beToNat (be16 c) = c := by
  simp [beToNat, be16]
  omega

theorem be16_eq_pair {a b : Nat} (ha : a < 256) (hb : b < 256) :
    be16 (a * 256 + b) = [a, b] := by
  simp [be16]
  omega

/-- If the trailer stores a 16-bit value different from the CRC of the body,
validateChecksum rejects the frame. -/
theorem validate_append_be16_ne (body : List Nat) (c : Nat) (hc : c < 2 ^ 16)
    (hne : crc16Fast body ≠ c) :
    validateChecksum (body ++ be16 c) = false := by
  have hlen : (body ++ be16 c).length = body.length + 2 := by simp [be16]
  rw [validateChecksum, if_neg (by omega)]
  rw [hlen, Nat.add_sub_cancel, List.take_left, List.drop_left]
  rw [beToNat_be16 hc]
  exact beq_eq_false_iff_ne.mpr (fun h => hne h.symm)

/-- C6: for any frame produced by prepareBody, flipping any single bit of the
frame makes validateChecksum fail, for every offset, every byte payload, and
every bit position — flips in the protected region change the computed CRC
(single-bit errors are always detected by this CRC), flips in the trailer
change the stored CRC; the flipped frame keeps its length, so the only
rejection RecordCodec parsing can report for it is the checksum mismatch. -/
theorem c6_checksum_sensitivity (offset : Nat) (data : List Nat)
    (hdata : ∀ b ∈ data, b < 256) (p : Nat) (hp : p < 8 * (10 + data.length)) :
    validateChecksum (flipBit (prepareBody offset data) p) = false ∧
    (flipBit (prepareBody offset data) p).length = 10 + data.length := by
  have hk : p % 8 < 8 := Nat.mod_lt _ (by norm_num)
  have hprebytes : ∀ x ∈ be64 offset ++ data, x < 256 := by
    intro x hx
    rcases List.mem_append.mp hx with h | h
    · exact be64_bytes offset x h
    · exact hdata x h
  have hprelen : (be64 offset ++ data).length = 8 + data.length := by
    simp [be64]
    omega
  have hcrc : crc16Fast (be64 offset ++ data) < 2 ^ 16 := crc16Fast_lt _
  have hi : p / 8 < 10 + data.length := by omega
  have hplen : (prepareBody offset data).length = 10 + data.length := by
    have h2 : (prepareBody offset data).length = (be64 offset ++ data).length + 2 := by
      simp [prepareBody, be16]
      omega
    omega
  have hflip_len : (flipBit (prepareBody offset data) p).length = 10 + data.length := by
    rw [flipBit, List.length_set]
    exact hplen
  refine ⟨?_, hflip_len⟩
  by_cases hcase : p / 8 < (be64 offset ++ data).length
  · have hsplit : flipBit (prepareBody offset data) p
        = ((be64 offset ++ data).set (p / 8)
            ((be64 offset ++ data).getD (p / 8) 0 ^^^ (1 <<< (p % 8))))
          ++ be16 (crc16Fast (be64 offset ++ data)) := by
      rw [flipBit, prepareBody, List.set_append_left _ _ hcase,
        List.getD_append _ _ _ _ hcase]
    rw [hsplit]
    exact validate_append_be16_ne _ _ hcrc
      (crcFold_set_ne _ (p / 8) 0xCACA (by norm_num) hprebytes hcase (p % 8) hk)
  · push_neg at hcase
    have hsplit : flipBit (prepareBody offset data) p
        = (be64 offset ++ data) ++ ((be16 (crc16Fast (be64 offset ++ data))).set
            (p / 8 - (be64 offset ++ data).length)
            ((be16 (crc16Fast (be64 offset ++ data))).getD
              (p / 8 - (be64 offset ++ data).length) 0 ^^^ (1 <<< (p % 8)))) := by
      rw [flipBit, prepareBody, List.set_append_right _ _ hcase,
        List.getD_append_right _ _ _ _ hcase]
    rw [hsplit]
    have hj : p / 8 - (be64 offset ++ data).length = 0 ∨
        p / 8 - (be64 offset ++ data).length = 1 := by omega
    have hhigh : crc16Fast (be64 offset ++ data) / 2 ^ 8 % 256 < 256 :=
      Nat.mod_lt _ (by norm_num)
    have hlow : crc16Fast (be64 offset ++ data) % 256 < 256 := Nat.mod_lt _ (by norm_num)
    rcases hj with hj | hj <;> rw [hj]
    · have htr : (be16 (crc16Fast (be64 offset ++ data))).set 0
          ((be16 (crc16Fast (be64 offset ++ data))).getD 0 0 ^^^ (1 <<< (p % 8)))
          = be16 ((crc16Fast (be64 offset ++ data) / 2 ^ 8 % 256 ^^^ (1 <<< (p % 8))) * 256
              + crc16Fast (be64 offset ++ data) % 256) := by
        rw [be16_eq_pair (xor_lt_256 hhigh (one_shl_lt_256 hk)) hlow]
        simp [be16]
      rw [htr]
      apply validate_append_be16_ne
      · have hx : crc16Fast (be64 offset ++ data) / 2 ^ 8 % 256 ^^^ (1 <<< (p % 8)) < 256 :=
          xor_lt_256 hhigh (one_shl_lt_256 hk)
        omega
      · intro hcon
        have hxne : crc16Fast (be64 offset ++ data) / 2 ^ 8 % 256 ^^^ (1 <<< (p % 8))
            ≠ crc16Fast (be64 offset ++ data) / 2 ^ 8 % 256 :=
          xor_ne_self (one_shl_ne_zero _)
        apply hxne
        omega
    · have htr : (be16 (crc16Fast (be64 offset ++ data))).set 1
          ((be16 (crc16Fast (be64 offset ++ data))).getD 1 0 ^^^ (1 <<< (p % 8)))
          = be16 ((crc16Fast (be64 offset ++ data) / 2 ^ 8 % 256) * 256
              + (crc16Fast (be64 offset ++ data) % 256 ^^^ (1 <<< (p % 8)))) := by
        rw [be16_eq_pair hhigh (xor_lt_256 hlow (one_shl_lt_256 hk))]
        simp [be16]
      rw [htr]
      apply validate_append_be16_ne
      · have hx : crc16Fast (be64 offset ++ data) % 256 ^^^ (1 <<< (p % 8)) < 256 :=
          xor_lt_256 hlow (one_shl_lt_256 hk)
        omega
      · intro hcon
        have hxne : crc16Fast (be64 offset ++ data) % 256 ^^^ (1 <<< (p % 8))
            ≠ crc16Fast (be64 offset ++ data) % 256 :=
          xor_ne_self (one_shl_ne_zero _)
        apply hxne
        omega

/-- C6 witness: flipping bit 0 of the frame for offset 1, payload [104]
breaks validation, and the flipped frame keeps its 11-byte length. -/
theorem c6_witness :
    validateChecksum (flipBit (prepareBody 1 [104]) 0) = false ∧
    (flipBit (prepareBody 1 [104]) 0).length = 10 + [104].length :=
  c6_checksum_sensitivity 1 [104] (by decide) 0 (by norm_num)

end S3DAL
